import Mathlib

/-!
Verification of the OSPF network simulator (`tech295.py`) against its
natural-language specification.  The Python source is shallowly embedded:
floating-point latencies become exact rationals (`ℚ`), the mutable
latency/cost dictionaries become functions updated pointwise in the same
order as the Python assignments, random draws become explicit oracle
arguments, and the cooperative async updater loop becomes a small-step
machine.  `networkx.shortest_path` (library code that is not part of the
repository) is modelled from the spec as Dijkstra's algorithm and proved
to return a minimum-cost path.
-/

namespace OSPFSim

/-- Node identifiers are the Python node-name strings. -/
abbrev Node := String

/-- `int()` applied to a rational: Python's truncation toward zero. -/
def pyInt (q : ℚ) : ℤ := if 0 ≤ q then ⌊q⌋ else -⌊-q⌋

/-- `cost = int(100 / (latency / 10))` — the OSPF cost formula used at
lines 67 and 81 of the source. -/
def costOf (latency : ℚ) : ℤ := pyInt (100 / (latency / 10))

/-- The metric tables of `NetworkSimulator`: `self.latencies` and
`self.ospf_costs`, keyed by directed node pairs exactly as the Python
dicts are. -/
structure SimState where
  latencies : Node × Node → ℚ
  ospf_costs : Node × Node → ℤ

/-- A single dictionary assignment `store[k] = x`. -/
def updStore {α : Type} (f : Node × Node → α) (k : Node × Node) (x : α) :
    Node × Node → α :=
  fun p => if p = k then x else f p

def R1 : Node := "R1"
def R2 : Node := "R2"
def R3 : Node := "R3"
def R4 : Node := "R4"
def N1 : Node := "N1"
def N2 : Node := "N2"
def N3 : Node := "N3"

/-- The seven node names created by `_initialize_network`. -/
def nodeNames : List Node := [R1, R2, R3, R4, N1, N2, N3]

/-- The fixed edge list `connections` of `_initialize_network`
(router backbone ring plus three leaf links), in source order, which is
also the order `self.graph.edges()` reports them in. -/
def connections : List (Node × Node) :=
  [(R1, R2), (R2, R3), (R3, R4), (R4, R1), (R1, N1), (R2, N2), (R3, N3)]

/-- A key of the metric tables: either stored orientation of an edge. -/
def isEdgeKey (k : Node × Node) : Prop :=
  k ∈ connections ∨ Prod.swap k ∈ connections

instance (k : Node × Node) : Decidable (isEdgeKey k) := by
  unfold isEdgeKey; infer_instance

/-- The per-edge body of the `for u, v in connections` loop of
`_initialize_network`: store the drawn latency under both orientations,
then the derived cost under both orientations. -/
def initEdge (s : SimState) (e : Node × Node) (latency : ℚ) : SimState :=
  let lats := updStore (updStore s.latencies e latency) (Prod.swap e) latency
  let c := costOf latency
  { latencies := lats,
    ospf_costs := updStore (updStore s.ospf_costs e c) (Prod.swap e) c }

/-- `_initialize_network`, with the `random.uniform(10, 50)` draws supplied
by the oracle `draw`.  The graph/node construction carries no metric state;
only the latency/cost seeding is modelled. -/
def initState (draw : Node × Node → ℚ) : SimState :=
  connections.foldl (fun s e => initEdge s e (draw e))
    { latencies := fun _ => 0, ospf_costs := fun _ => 0 }

/-- The per-edge body of one iteration of `update_latencies`: multiply the
current latency by the drawn factor, store it under both orientations,
recompute the cost, store it under both orientations. -/
def perturbEdge (s : SimState) (e : Node × Node) (factor : ℚ) : SimState :=
  let newLat := s.latencies e * factor
  let lats := updStore (updStore s.latencies e newLat) (Prod.swap e) newLat
  let c := costOf newLat
  { latencies := lats,
    ospf_costs := updStore (updStore s.ospf_costs e c) (Prod.swap e) c }

/-- One full perturbation pass of `update_latencies` over
`self.graph.edges()`, with the `random.uniform(0.9, 1.1)` draws supplied
by the oracle `fac`.  `graph.edges()` may report an edge in either
orientation and in adjacency order rather than insertion order; since the
key footprints of distinct edges are disjoint and `perturbEdge` reads a
symmetrically-stored latency and writes both orientations, folding over
`connections` in source order produces the identical table. -/
def perturbPass (s : SimState) (fac : Node × Node → ℚ) : SimState :=
  connections.foldl (fun st e => perturbEdge st e (fac e)) s

/-- Metric-table states reachable by construction followed by finitely
many perturbation passes, with every random draw inside its documented
range. -/
inductive Reachable : SimState → Prop
  | init (draw : Node × Node → ℚ)
      (hd : ∀ e ∈ connections, 10 ≤ draw e ∧ draw e ≤ 50) :
      Reachable (initState draw)
  | step (s : SimState) (fac : Node × Node → ℚ) (hs : Reachable s)
      (hf : ∀ e ∈ connections, 9/10 ≤ fac e ∧ fac e ≤ 11/10) :
      Reachable (perturbPass s fac)

/-! ### Pointwise evaluation of the table updates -/

theorem updStore_self {α : Type} (f : Node × Node → α) (k : Node × Node) (x : α) :
    updStore f k x k = x := by
  simp [updStore]

theorem updStore_ne {α : Type} (f : Node × Node → α) (k : Node × Node) (x : α)
    (p : Node × Node) (h : p ≠ k) : updStore f k x p = f p := by
  simp [updStore, h]

theorem perturbEdge_lat_key (s : SimState) (e : Node × Node) (f : ℚ) :
    (perturbEdge s e f).latencies e = s.latencies e * f := by
  simp only [perturbEdge]
  by_cases h : e = Prod.swap e
  · simp only [← h, updStore_self]
  · rw [updStore_ne _ _ _ _ h, updStore_self]

theorem perturbEdge_lat_swap (s : SimState) (e : Node × Node) (f : ℚ) :
    (perturbEdge s e f).latencies (Prod.swap e) = s.latencies e * f := by
  simp only [perturbEdge]
  rw [updStore_self]

theorem perturbEdge_cost_key (s : SimState) (e : Node × Node) (f : ℚ) :
    (perturbEdge s e f).ospf_costs e = costOf (s.latencies e * f) := by
  simp only [perturbEdge]
  by_cases h : e = Prod.swap e
  · simp only [← h, updStore_self]
  · rw [updStore_ne _ _ _ _ h, updStore_self]

theorem perturbEdge_cost_swap (s : SimState) (e : Node × Node) (f : ℚ) :
    (perturbEdge s e f).ospf_costs (Prod.swap e) = costOf (s.latencies e * f) := by
  simp only [perturbEdge]
  rw [updStore_self]

theorem perturbEdge_other (s : SimState) (e : Node × Node) (f : ℚ) (k : Node × Node)
    (h1 : k ≠ e) (h2 : k ≠ Prod.swap e) :
    (perturbEdge s e f).latencies k = s.latencies k ∧
      (perturbEdge s e f).ospf_costs k = s.ospf_costs k := by
  simp only [perturbEdge]
  constructor <;> rw [updStore_ne _ _ _ _ h2, updStore_ne _ _ _ _ h1]

theorem initEdge_lat_key (s : SimState) (e : Node × Node) (l : ℚ) :
    (initEdge s e l).latencies e = l := by
  simp only [initEdge]
  by_cases h : e = Prod.swap e
  · simp only [← h, updStore_self]
  · rw [updStore_ne _ _ _ _ h, updStore_self]

theorem initEdge_lat_swap (s : SimState) (e : Node × Node) (l : ℚ) :
    (initEdge s e l).latencies (Prod.swap e) = l := by
  simp only [initEdge]
  rw [updStore_self]

theorem initEdge_cost_key (s : SimState) (e : Node × Node) (l : ℚ) :
    (initEdge s e l).ospf_costs e = costOf l := by
  simp only [initEdge]
  by_cases h : e = Prod.swap e
  · simp only [← h, updStore_self]
  · rw [updStore_ne _ _ _ _ h, updStore_self]

theorem initEdge_cost_swap (s : SimState) (e : Node × Node) (l : ℚ) :
    (initEdge s e l).ospf_costs (Prod.swap e) = costOf l := by
  simp only [initEdge]
  rw [updStore_self]

theorem initEdge_other (s : SimState) (e : Node × Node) (l : ℚ) (k : Node × Node)
    (h1 : k ≠ e) (h2 : k ≠ Prod.swap e) :
    (initEdge s e l).latencies k = s.latencies k ∧
      (initEdge s e l).ospf_costs k = s.ospf_costs k := by
  simp only [initEdge]
  constructor <;> rw [updStore_ne _ _ _ _ h2, updStore_ne _ _ _ _ h1]

/-- Distinctness relation between edges of the topology: neither equal nor
mirror images, so their dictionary-key footprints are disjoint. -/
def EdgeDisj (a b : Node × Node) : Prop := a ≠ b ∧ a ≠ Prod.swap b

instance (a b : Node × Node) : Decidable (EdgeDisj a b) := by
  unfold EdgeDisj; infer_instance

theorem connections_pairwise : connections.Pairwise EdgeDisj := by decide

theorem foldl_init_preserve (L : List (Node × Node)) (draw : Node × Node → ℚ)
    (s : SimState) (k : Node × Node) (h : ∀ b ∈ L, k ≠ b ∧ k ≠ Prod.swap b) :
    (L.foldl (fun st e => initEdge st e (draw e)) s).latencies k = s.latencies k ∧
      (L.foldl (fun st e => initEdge st e (draw e)) s).ospf_costs k = s.ospf_costs k := by
  induction L generalizing s with
  | nil => exact ⟨rfl, rfl⟩
  | cons b L ih =>
    simp only [List.foldl_cons]
    obtain ⟨h1, h2⟩ := h b (List.mem_cons_self b L)
    have hrest := ih (initEdge s b (draw b)) (fun x hx => h x (List.mem_cons_of_mem b hx))
    obtain ⟨hl, hc⟩ := initEdge_other s b (draw b) k h1 h2
    rw [hrest.1, hrest.2, hl, hc]
    exact ⟨rfl, rfl⟩

theorem foldl_perturb_preserve (L : List (Node × Node)) (fac : Node × Node → ℚ)
    (s : SimState) (k : Node × Node) (h : ∀ b ∈ L, k ≠ b ∧ k ≠ Prod.swap b) :
    (L.foldl (fun st e => perturbEdge st e (fac e)) s).latencies k = s.latencies k ∧
      (L.foldl (fun st e => perturbEdge st e (fac e)) s).ospf_costs k = s.ospf_costs k := by
  induction L generalizing s with
  | nil => exact ⟨rfl, rfl⟩
  | cons b L ih =>
    simp only [List.foldl_cons]
    obtain ⟨h1, h2⟩ := h b (List.mem_cons_self b L)
    have hrest := ih (perturbEdge s b (fac b)) (fun x hx => h x (List.mem_cons_of_mem b hx))
    obtain ⟨hl, hc⟩ := perturbEdge_other s b (fac b) k h1 h2
    rw [hrest.1, hrest.2, hl, hc]
    exact ⟨rfl, rfl⟩

/-- Disjointness of an edge from a list, in both orientations, follows from
pairwise disjointness with it. -/
theorem key_disj_of_pairwise {b : Node × Node} {L : List (Node × Node)}
    (h : ∀ x ∈ L, EdgeDisj b x) :
    (∀ x ∈ L, b ≠ x ∧ b ≠ Prod.swap x) ∧
      (∀ x ∈ L, Prod.swap b ≠ x ∧ Prod.swap b ≠ Prod.swap x) := by
  constructor
  · exact fun x hx => (h x hx)
  · intro x hx
    obtain ⟨h1, h2⟩ := h x hx
    constructor
    · intro heq
      exact h2 (by rw [← heq, Prod.swap_swap])
    · intro heq
      exact h1 (Prod.swap_injective heq)

theorem foldl_init_eval (L : List (Node × Node)) (draw : Node × Node → ℚ)
    (s : SimState) (e : Node × Node) (he : e ∈ L) (hp : L.Pairwise EdgeDisj) :
    (L.foldl (fun st x => initEdge st x (draw x)) s).latencies e = draw e ∧
      (L.foldl (fun st x => initEdge st x (draw x)) s).latencies (Prod.swap e) = draw e ∧
      (L.foldl (fun st x => initEdge st x (draw x)) s).ospf_costs e = costOf (draw e) ∧
      (L.foldl (fun st x => initEdge st x (draw x)) s).ospf_costs (Prod.swap e)
        = costOf (draw e) := by
  induction L generalizing s with
  | nil => cases he
  | cons b L ih =>
    rw [List.pairwise_cons] at hp
    simp only [List.foldl_cons]
    rcases List.mem_cons.mp he with rfl | htail
    · obtain ⟨hd, _⟩ := key_disj_of_pairwise hp.1
      have p1 := foldl_init_preserve L draw (initEdge s e (draw e)) e hd
      have p2 := foldl_init_preserve L draw (initEdge s e (draw e)) (Prod.swap e)
        (key_disj_of_pairwise hp.1).2
      rw [p1.1, p1.2, p2.1, p2.2, initEdge_lat_key, initEdge_lat_swap,
        initEdge_cost_key, initEdge_cost_swap]
      exact ⟨rfl, rfl, rfl, rfl⟩
    · exact ih (initEdge s b (draw b)) htail hp.2

theorem foldl_perturb_eval (L : List (Node × Node)) (fac : Node × Node → ℚ)
    (s : SimState) (e : Node × Node) (he : e ∈ L) (hp : L.Pairwise EdgeDisj) :
    (L.foldl (fun st x => perturbEdge st x (fac x)) s).latencies e
        = s.latencies e * fac e ∧
      (L.foldl (fun st x => perturbEdge st x (fac x)) s).latencies (Prod.swap e)
        = s.latencies e * fac e ∧
      (L.foldl (fun st x => perturbEdge st x (fac x)) s).ospf_costs e
        = costOf (s.latencies e * fac e) ∧
      (L.foldl (fun st x => perturbEdge st x (fac x)) s).ospf_costs (Prod.swap e)
        = costOf (s.latencies e * fac e) := by
  induction L generalizing s with
  | nil => cases he
  | cons b L ih =>
    rw [List.pairwise_cons] at hp
    simp only [List.foldl_cons]
    rcases List.mem_cons.mp he with rfl | htail
    · obtain ⟨hd, _⟩ := key_disj_of_pairwise hp.1
      have p1 := foldl_perturb_preserve L fac (perturbEdge s e (fac e)) e hd
      have p2 := foldl_perturb_preserve L fac (perturbEdge s e (fac e)) (Prod.swap e)
        (key_disj_of_pairwise hp.1).2
      rw [p1.1, p1.2, p2.1, p2.2, perturbEdge_lat_key, perturbEdge_lat_swap,
        perturbEdge_cost_key, perturbEdge_cost_swap]
      exact ⟨rfl, rfl, rfl, rfl⟩
    · obtain ⟨hb1, hb2⟩ := hp.1 e htail
      have hb3 : e ≠ b := fun h => hb1 h.symm
      have hb4 : e ≠ Prod.swap b := by
        intro h
        exact hb2 (by rw [h, Prod.swap_swap])
      have hlat := (perturbEdge_other s b (fac b) e hb3 hb4).1
      have := ih (perturbEdge s b (fac b)) htail hp.2
      rw [hlat] at this
      exact this

/-! ### The metric-table invariant -/

/-- The invariant of the metric tables: positive latency, symmetric
storage, and cost derived from the stored latency by the source formula. -/
def GoodState (s : SimState) : Prop :=
  ∀ e ∈ connections,
    0 < s.latencies e ∧
    s.latencies (Prod.swap e) = s.latencies e ∧
    s.ospf_costs e = costOf (s.latencies e) ∧
    s.ospf_costs (Prod.swap e) = s.ospf_costs e

theorem reachable_good {s : SimState} (h : Reachable s) : GoodState s := by
  induction h with
  | init draw hd =>
    intro e he
    obtain ⟨l1, l2, c1, c2⟩ :=
      foldl_init_eval connections draw
        { latencies := fun _ => 0, ospf_costs := fun _ => 0 } e he connections_pairwise
    simp only [initState]
    rw [l1, l2, c1, c2]
    exact ⟨lt_of_lt_of_le (by norm_num) (hd e he).1, rfl, rfl, rfl⟩
  | step s fac hs hf ih =>
    intro e he
    obtain ⟨l1, l2, c1, c2⟩ := foldl_perturb_eval connections fac s e he connections_pairwise
    simp only [perturbPass]
    rw [l1, l2, c1, c2]
    have hfac : 0 < fac e := lt_of_lt_of_le (by norm_num) (hf e he).1
    exact ⟨mul_pos (ih e he).1 hfac, rfl, rfl, rfl⟩

/-- The invariant read off at an arbitrary key of the table (either
orientation of an edge). -/
theorem good_key {s : SimState} (hg : GoodState s) {k : Node × Node} (hk : isEdgeKey k) :
    0 < s.latencies k ∧
      s.latencies (Prod.swap k) = s.latencies k ∧
      s.ospf_costs k = costOf (s.latencies k) ∧
      s.ospf_costs (Prod.swap k) = s.ospf_costs k := by
  rcases hk with h | h
  · exact hg k h
  · obtain ⟨p1, p2, p3, p4⟩ := hg (Prod.swap k) h
    rw [Prod.swap_swap] at p2 p4
    refine ⟨by rw [p2]; exact p1, p2.symm, ?_, p4.symm⟩
    rw [p4, p3, ← p2]

/-- For a positive latency, the source's `int(100 / (latency / 10))`
equals `⌊1000 / latency⌋`. -/
theorem costOf_pos_floor (l : ℚ) (hl : 0 < l) : costOf l = ⌊1000 / l⌋ := by
  have he : (100 : ℚ) / (l / 10) = 1000 / l := by
    field_simp
    ring
  unfold costOf pyInt
  rw [he, if_pos (by positivity)]

/-- Evaluation helper: pin `costOf` at a concrete latency from rational
bounds on `1000 / latency`. -/
theorem costOf_eq_of_bounds (l : ℚ) (n : ℤ) (h1 : 0 < l) (h2 : (n : ℚ) ≤ 1000 / l)
    (h3 : 1000 / l < n + 1) : costOf l = n := by
  rw [costOf_pos_floor l h1, Int.floor_eq_iff]
  exact ⟨h2, by exact_mod_cast h3⟩

/-- C1: immediately after initialization and after every perturbation
pass, every stored edge cost equals `⌊1000 / latency⌋` of that edge's
stored latency; and for every positive latency the source formula
`int(100 / (latency / 10))` coincides with `⌊1000 / latency⌋`. -/
theorem claim_C1 :
    (∀ l : ℚ, 0 < l → costOf l = ⌊1000 / l⌋) ∧
      (∀ s : SimState, Reachable s → ∀ k : Node × Node, isEdgeKey k →
        s.ospf_costs k = ⌊1000 / s.latencies k⌋) := by
  constructor
  · exact costOf_pos_floor
  · intro s hs k hk
    obtain ⟨h1, _, h3, _⟩ := good_key (reachable_good hs) hk
    rw [h3, costOf_pos_floor _ h1]

/-- Witness for C1 at latency 20 and the freshly initialized state with
all draws equal to 20. -/
theorem claim_C1_witness :
    costOf 20 = ⌊(1000 : ℚ) / 20⌋ ∧
      (initState fun _ => 20).ospf_costs (R1, R2)
        = ⌊1000 / (initState fun _ => 20).latencies (R1, R2)⌋ :=
  ⟨claim_C1.1 20 (by norm_num),
   claim_C1.2 _ (Reachable.init _ (fun e _ => by norm_num)) _ (by decide)⟩

/-- C3: in every reachable state, the two stored orientations of an edge
carry equal latency and equal cost. -/
theorem claim_C3 :
    ∀ s : SimState, Reachable s → ∀ k : Node × Node, isEdgeKey k →
      s.latencies k = s.latencies (Prod.swap k) ∧
        s.ospf_costs k = s.ospf_costs (Prod.swap k) := by
  intro s hs k hk
  obtain ⟨_, h2, _, h4⟩ := good_key (reachable_good hs) hk
  exact ⟨h2.symm, h4.symm⟩

/-- Witness for C3 at the freshly initialized state with all draws 30. -/
theorem claim_C3_witness :
    (initState fun _ => 30).latencies (R1, R2)
        = (initState fun _ => 30).latencies (Prod.swap (R1, R2)) ∧
      (initState fun _ => 30).ospf_costs (R1, R2)
        = (initState fun _ => 30).ospf_costs (Prod.swap (R1, R2)) :=
  claim_C3 _ (Reachable.init _ (fun e _ => by norm_num)) _ (by decide)

/-! ### C4: the positivity claim and its counterexample -/

/-- The constant perturbation factor 1.1 (the top of the documented
range), used to drive a latency above 1000 ms. -/
def upFac : Node × Node → ℚ := fun _ => 11 / 10

/-- 33 maximal-upward perturbation passes applied to the state seeded
with latency 50 on every edge. -/
def badState : SimState :=
  (fun s => perturbPass s upFac)^[33] (initState fun _ => 50)

theorem iter_reachable (n : ℕ) :
    Reachable ((fun s => perturbPass s upFac)^[n] (initState fun _ => 50)) := by
  induction n with
  | zero => exact Reachable.init _ (fun e _ => by norm_num)
  | succ n ih =>
    rw [Function.iterate_succ_apply']
    exact Reachable.step _ _ ih (fun e _ => by constructor <;> norm_num [upFac])

theorem iter_lat (n : ℕ) :
    ((fun s => perturbPass s upFac)^[n] (initState fun _ => 50)).latencies (R1, R2)
      = 50 * (11 / 10) ^ n := by
  induction n with
  | zero =>
    simp only [Function.iterate_zero, id_eq, pow_zero, mul_one, initState]
    exact (foldl_init_eval connections (fun _ => 50) _ (R1, R2) (by decide)
      connections_pairwise).1
  | succ n ih =>
    rw [Function.iterate_succ_apply']
    have hev := foldl_perturb_eval connections upFac
      ((fun s => perturbPass s upFac)^[n] (initState fun _ => 50)) (R1, R2)
      (by decide) connections_pairwise
    have hstep :
        (perturbPass ((fun s => perturbPass s upFac)^[n] (initState fun _ => 50))
            upFac).latencies (R1, R2)
          = ((fun s => perturbPass s upFac)^[n] (initState fun _ => 50)).latencies (R1, R2)
              * upFac (R1, R2) := hev.1
    rw [hstep, ih]
    simp only [upFac]
    ring

/-- Counterexample to C4 as stated: `badState` is reachable (all random
draws inside their documented ranges), yet the stored cost of edge
(R1, R2) there is 0, not strictly positive — its latency has drifted to
`50 · 1.1³³ > 1000`. -/
theorem claim_C4_counterexample :
    Reachable badState ∧ isEdgeKey (R1, R2) ∧ ¬(0 < badState.ospf_costs (R1, R2)) := by
  refine ⟨iter_reachable 33, by decide, ?_⟩
  obtain ⟨_, _, h3, _⟩ :=
    good_key (reachable_good (iter_reachable 33)) (k := (R1, R2)) (by decide)
  have hlat := iter_lat 33
  have hz : costOf (50 * (11 / 10 : ℚ) ^ 33) = 0 := by
    apply costOf_eq_of_bounds <;> norm_num
  unfold badState
  rw [h3, hlat, hz]
  norm_num

/-- C4 amended: in every reachable state every edge latency is positive
and every edge cost is a *nonnegative* integer, strictly positive
whenever that edge's latency is at most 1000 ms (in particular always
strictly positive right after initialization). -/
theorem claim_C4_amended :
    ∀ s : SimState, Reachable s → ∀ k : Node × Node, isEdgeKey k →
      0 < s.latencies k ∧ 0 ≤ s.ospf_costs k ∧
        (s.latencies k ≤ 1000 → 0 < s.ospf_costs k) := by
  intro s hs k hk
  obtain ⟨h1, _, h3, _⟩ := good_key (reachable_good hs) hk
  refine ⟨h1, ?_, ?_⟩
  · rw [h3, costOf_pos_floor _ h1]
    exact Int.le_floor.mpr (by push_cast; positivity)
  · intro hle
    rw [h3, costOf_pos_floor _ h1]
    have : (1 : ℤ) ≤ ⌊(1000 : ℚ) / s.latencies k⌋ :=
      Int.le_floor.mpr (by push_cast; exact (one_le_div h1).mpr hle)
    omega

/-- Witness for the amended C4 at the freshly initialized state with all
draws 20. -/
theorem claim_C4_amended_witness :
    0 < (initState fun _ => 20).latencies (R1, R2) ∧
      0 ≤ (initState fun _ => 20).ospf_costs (R1, R2) ∧
      ((initState fun _ => 20).latencies (R1, R2) ≤ 1000 →
        0 < (initState fun _ => 20).ospf_costs (R1, R2)) :=
  claim_C4_amended _ (Reachable.init _ (fun e _ => by norm_num)) _ (by decide)

/-! ### Path resolution (`get_ospf_path`) -/

/-- The query errors of the simulator: the unknown-node error
(`networkx.NodeNotFound` from `nx.shortest_path`, or the explicit
`ValueError("Source or destination node not found")` raised by `ping` and
`traceroute`) and the no-path error (`ValueError("No OSPF path found …")`
raised by `get_ospf_path` on `NetworkXNoPath`). -/
inductive SimError
  | nodeNotFound
  | noPath
deriving DecidableEq

/-- A settled entry of the shortest-path computation: a node, its settled
distance, and a minimum-cost path from the source to it. -/
abbrev DEntry := Node × ℤ × List Node

def keysOf (S : List DEntry) : List Node := S.map (fun ent => ent.1)

/-- Adjacency of the undirected graph built from the edge list. -/
def Adj (E : List (Node × Node)) (u v : Node) : Prop := (u, v) ∈ E ∨ (v, u) ∈ E

instance (E : List (Node × Node)) (u v : Node) : Decidable (Adj E u v) := by
  unfold Adj; infer_instance

/-- The weight the transient `ospf_graph` carries on the pair `(u, v)`:
`nx.Graph.add_edge(e[0], e[1], weight=costs[e])` stores the cost of the
stored orientation on both directions. -/
def wOf (E : List (Node × Node)) (c : Node × Node → ℤ) (u v : Node) : ℤ :=
  if (u, v) ∈ E then c (u, v) else c (v, u)

/-- The weighted neighbors of `u` in the transient `ospf_graph`. -/
def neighborsOf (E : List (Node × Node)) (c : Node × Node → ℤ) (u : Node) :
    List (Node × ℤ) :=
  match E with
  | [] => []
  | e :: rest =>
    if e.1 = u then (e.2, c e) :: neighborsOf rest c u
    else if e.2 = u then (e.1, c e) :: neighborsOf rest c u
    else neighborsOf rest c u

/-- One-edge extensions of settled entries to unsettled nodes. -/
def candidatesOf (E : List (Node × Node)) (c : Node × Node → ℤ) (S : List DEntry) :
    List DEntry :=
  S.flatMap (fun ent =>
    (neighborsOf E c ent.1).filterMap (fun nb =>
      if nb.1 ∈ keysOf S then none
      else some (nb.1, ent.2.1 + nb.2, ent.2.2 ++ [nb.1])))

/-- First candidate of minimum settled distance. -/
def pickMin (a : DEntry) (l : List DEntry) : DEntry :=
  l.foldl (fun best x => if x.2.1 < best.2.1 then x else best) a

/-- The main Dijkstra loop: repeatedly settle a minimum-distance
candidate until none remains. -/
def dijkstraLoop (E : List (Node × Node)) (c : Node × Node → ℤ) :
    ℕ → List DEntry → List DEntry
  | 0, S => S
  | fuel + 1, S =>
    match candidatesOf E c S with
    | [] => S
    | a :: l => dijkstraLoop E c fuel (S ++ [pickMin a l])

/-- The nodes of the transient `ospf_graph` (the endpoints of its edges). -/
def graphNodes (E : List (Node × Node)) : List Node :=
  (E.foldr (fun e acc => e.1 :: e.2 :: acc) []).dedup

/-- Modelled from the spec: `nx.shortest_path(G, source, target,
weight='weight')` — library code that is not part of the repository —
"computes the minimum total-cost path using a single-source shortest-path
algorithm (Dijkstra, since all costs are positive)". -/
def dijkstra (E : List (Node × Node)) (c : Node × Node → ℤ) (src : Node) : List DEntry :=
  dijkstraLoop E c (graphNodes E).length [(src, 0, [src])]

/-- `NetworkSimulator.get_ospf_path`: build the weighted view of the
graph from the current costs and run the shortest-path computation;
unknown endpoints surface as `NodeNotFound` (uncaught), an unreachable
destination as the no-path `ValueError`. -/
def get_ospf_path (E : List (Node × Node)) (c : Node × Node → ℤ) (src dst : Node) :
    Except SimError (List Node) :=
  if src ∈ graphNodes E ∧ dst ∈ graphNodes E then
    match (dijkstra E c src).find? (fun ent => ent.1 == dst) with
    | some ent => .ok ent.2.2
    | none => .error .noPath
  else .error .nodeNotFound

/-- Walks of the undirected graph: node sequences starting at the first
index, ending at the second, whose consecutive pairs are edges. -/
inductive Walk (E : List (Node × Node)) : Node → Node → List Node → Prop
  | single (u : Node) : Walk E u u [u]
  | cons {u v d : Node} {p : List Node} (huv : Adj E u v) (hw : Walk E v d p) :
      Walk E u d (u :: p)

/-- Total weight of a node sequence in the transient weighted graph. -/
def walkCost (E : List (Node × Node)) (c : Node × Node → ℤ) : List Node → ℤ
  | u :: v :: rest => wOf E c u v + walkCost E c (v :: rest)
  | _ => 0

theorem walkCost_cons_cons (E : List (Node × Node)) (c : Node × Node → ℤ)
    (u v : Node) (rest : List Node) :
    walkCost E c (u :: v :: rest) = wOf E c u v + walkCost E c (v :: rest) := rfl

theorem Walk.head_shape {E : List (Node × Node)} {a b : Node} {p : List Node}
    (h : Walk E a b p) : ∃ q, p = a :: q := by
  cases h with
  | single u => exact ⟨[], rfl⟩
  | cons huv hw => exact ⟨_, rfl⟩

theorem Walk.last_eq {E : List (Node × Node)} {a b : Node} {p : List Node}
    (h : Walk E a b p) : p.getLast? = some b := by
  induction h with
  | single u => rfl
  | cons huv hw ih =>
    obtain ⟨q, rfl⟩ := hw.head_shape
    rw [List.getLast?_cons_cons]
    exact ih

theorem wOf_nonneg {E : List (Node × Node)} {c : Node × Node → ℤ}
    (hpos : ∀ e ∈ E, 0 ≤ c e) {u v : Node} (h : Adj E u v) : 0 ≤ wOf E c u v := by
  unfold wOf
  split
  · next hm => exact hpos _ hm
  · next hm => exact hpos _ (h.resolve_left hm)

theorem Walk.cost_nonneg {E : List (Node × Node)} {c : Node × Node → ℤ}
    (hpos : ∀ e ∈ E, 0 ≤ c e) {a b : Node} {p : List Node} (h : Walk E a b p) :
    0 ≤ walkCost E c p := by
  induction h with
  | single u => exact le_refl 0
  | cons huv hw ih =>
    obtain ⟨q, rfl⟩ := hw.head_shape
    rw [walkCost_cons_cons]
    exact add_nonneg (wOf_nonneg hpos huv) ih

theorem Walk.snoc {E : List (Node × Node)} {a b v : Node} {p : List Node}
    (h : Walk E a b p) : Adj E b v → Walk E a v (p ++ [v]) := by
  induction h with
  | single u => exact fun hadj => Walk.cons hadj (Walk.single v)
  | cons huv hw ih => exact fun hadj => Walk.cons huv (ih hadj)

theorem walkCost_snoc {E : List (Node × Node)} {c : Node × Node → ℤ}
    {a b : Node} {p : List Node} (h : Walk E a b p) (v : Node) :
    walkCost E c (p ++ [v]) = walkCost E c p + wOf E c b v := by
  induction h with
  | single u =>
    simp only [List.cons_append, List.nil_append, walkCost]
    ring
  | cons huv hw ih =>
    obtain ⟨q, hq⟩ := hw.head_shape
    subst hq
    simp only [List.cons_append] at ih ⊢
    rw [walkCost_cons_cons, walkCost_cons_cons, ih]
    ring

/-! ### Neighbor and candidate lemmas -/

/-- No edge of the list appears in both orientations unless it is a self
loop (so the weight each direction carries is unambiguous). -/
def OrientUnique (E : List (Node × Node)) : Prop :=
  ∀ a b : Node, (a, b) ∈ E → (b, a) ∈ E → a = b

theorem mem_neighborsOf_sound {E : List (Node × Node)} {c : Node × Node → ℤ}
    {u v : Node} {wv : ℤ} (h : (v, wv) ∈ neighborsOf E c u) :
    ∃ e ∈ E, (e = (u, v) ∨ e = (v, u)) ∧ wv = c e := by
  induction E with
  | nil => cases h
  | cons e rest ih =>
    rw [neighborsOf] at h
    split at h
    · next h1 =>
      rcases List.mem_cons.mp h with heq | htail
      · obtain ⟨hv, hw⟩ := Prod.mk.injEq .. ▸ heq
        exact ⟨e, List.mem_cons_self e rest, Or.inl (Prod.ext_iff.mpr ⟨h1, hv.symm⟩), hw⟩
      · obtain ⟨e', he', hor, hw⟩ := ih htail
        exact ⟨e', List.mem_cons_of_mem e he', hor, hw⟩
    · split at h
      · next h1 h2 =>
        rcases List.mem_cons.mp h with heq | htail
        · obtain ⟨hv, hw⟩ := Prod.mk.injEq .. ▸ heq
          exact ⟨e, List.mem_cons_self e rest, Or.inr (Prod.ext_iff.mpr ⟨hv.symm, h2⟩), hw⟩
        · obtain ⟨e', he', hor, hw⟩ := ih htail
          exact ⟨e', List.mem_cons_of_mem e he', hor, hw⟩
      · obtain ⟨e', he', hor, hw⟩ := ih h
        exact ⟨e', List.mem_cons_of_mem e he', hor, hw⟩

theorem mem_neighborsOf_fst {E : List (Node × Node)} (c : Node × Node → ℤ)
    {u v : Node} (h : (u, v) ∈ E) : (v, c (u, v)) ∈ neighborsOf E c u := by
  induction E with
  | nil => cases h
  | cons e rest ih =>
    rw [neighborsOf]
    rcases List.mem_cons.mp h with heq | htail
    · subst heq
      simp only [if_pos rfl]
      exact List.mem_cons_self _ _
    · split
      · exact List.mem_cons_of_mem _ (ih htail)
      · split
        · exact List.mem_cons_of_mem _ (ih htail)
        · exact ih htail

theorem mem_neighborsOf_snd {E : List (Node × Node)} (c : Node × Node → ℤ)
    {u v : Node} (h : (v, u) ∈ E) : (v, c (v, u)) ∈ neighborsOf E c u := by
  induction E with
  | nil => cases h
  | cons e rest ih =>
    rw [neighborsOf]
    rcases List.mem_cons.mp h with heq | htail
    · subst heq
      by_cases h1 : v = u
      · subst h1
        simp only [if_pos rfl]
        exact List.mem_cons_self _ _
      · simp only [h1, if_false, if_pos rfl]
        exact List.mem_cons_self _ _
    · split
      · exact List.mem_cons_of_mem _ (ih htail)
      · split
        · exact List.mem_cons_of_mem _ (ih htail)
        · exact ih htail

/-- In an orientation-unique edge list, every neighbor entry of `u`
carries exactly the weight `wOf` of the corresponding direction. -/
theorem neighbor_weight {E : List (Node × Node)} {c : Node × Node → ℤ}
    (hdup : OrientUnique E) {u v : Node} {wv : ℤ} (h : (v, wv) ∈ neighborsOf E c u) :
    Adj E u v ∧ wv = wOf E c u v := by
  obtain ⟨e, he, hor, hw⟩ := mem_neighborsOf_sound h
  rcases hor with rfl | rfl
  · refine ⟨Or.inl he, ?_⟩
    rw [hw, wOf, if_pos he]
  · refine ⟨Or.inr he, ?_⟩
    unfold wOf
    split
    · next hm =>
      have := hdup u v hm he
      subst this
      exact hw
    · exact hw

theorem adj_mem_neighbors {E : List (Node × Node)} (c : Node × Node → ℤ)
    {u v : Node} (h : Adj E u v) : (v, wOf E c u v) ∈ neighborsOf E c u := by
  unfold wOf
  split
  · next hm => exact mem_neighborsOf_fst c hm
  · next hm => exact mem_neighborsOf_snd c (h.resolve_left hm)

theorem mem_candidates_iff {E : List (Node × Node)} {c : Node × Node → ℤ}
    {S : List DEntry} {ent : DEntry} :
    ent ∈ candidatesOf E c S ↔
      ∃ u du pu, (u, du, pu) ∈ S ∧ ∃ v wv, (v, wv) ∈ neighborsOf E c u ∧
        v ∉ keysOf S ∧ ent = (v, du + wv, pu ++ [v]) := by
  constructor
  · intro h
    obtain ⟨x, hx, hmem⟩ := List.mem_flatMap.mp h
    obtain ⟨nb, hnb, hsome⟩ := List.mem_filterMap.mp hmem
    by_cases hk : nb.1 ∈ keysOf S
    · rw [if_pos hk] at hsome
      cases hsome
    · rw [if_neg hk] at hsome
      refine ⟨x.1, x.2.1, x.2.2, hx, nb.1, nb.2, hnb, hk, (Option.some.injEq .. ▸ hsome).symm⟩
  · intro h
    obtain ⟨u, du, pu, hu, v, wv, hnb, hk, rfl⟩ := h
    refine List.mem_flatMap.mpr ⟨(u, du, pu), hu, ?_⟩
    refine List.mem_filterMap.mpr ⟨(v, wv), hnb, ?_⟩
    rw [if_neg hk]

theorem pickMin_mem (a : DEntry) (l : List DEntry) : pickMin a l ∈ a :: l := by
  induction l generalizing a with
  | nil => exact List.mem_cons_self a []
  | cons x l ih =>
    rw [pickMin, List.foldl_cons]
    have step := ih (if x.2.1 < a.2.1 then x else a)
    rcases List.mem_cons.mp step with heq | htail
    · rw [pickMin] at heq
      rw [heq]
      split
      · exact List.mem_cons_of_mem a (List.mem_cons_self x l)
      · exact List.mem_cons_self a (x :: l)
    · exact List.mem_cons_of_mem a (List.mem_cons_of_mem x htail)

theorem pickMin_le (a : DEntry) (l : List DEntry) :
    ∀ x ∈ a :: l, (pickMin a l).2.1 ≤ x.2.1 := by
  induction l generalizing a with
  | nil =>
    intro x hx
    rcases List.mem_cons.mp hx with rfl | h
    · exact le_refl _
    · cases h
  | cons y l ih =>
    intro x hx
    have hpick : pickMin a (y :: l) = pickMin (if y.2.1 < a.2.1 then y else a) l := by
      rw [pickMin, pickMin, List.foldl_cons]
    have hb : (pickMin (if y.2.1 < a.2.1 then y else a) l).2.1
        ≤ (if y.2.1 < a.2.1 then y else a).2.1 :=
      ih _ _ (List.mem_cons_self _ _)
    have hba : (if y.2.1 < a.2.1 then y else a).2.1 ≤ a.2.1 := by
      split
      · next hlt => exact le_of_lt hlt
      · exact le_refl _
    have hby : (if y.2.1 < a.2.1 then y else a).2.1 ≤ y.2.1 := by
      split
      · exact le_refl _
      · next hge => exact le_of_not_lt hge
    rw [hpick]
    rcases List.mem_cons.mp hx with rfl | hx'
    · exact le_trans hb hba
    · rcases List.mem_cons.mp hx' with rfl | hx'
      · exact le_trans hb hby
      · exact ih _ _ (List.mem_cons_of_mem _ hx')

theorem mem_graphNodes {E : List (Node × Node)} {a b : Node} (h : (a, b) ∈ E) :
    a ∈ graphNodes E ∧ b ∈ graphNodes E := by
  unfold graphNodes
  rw [List.mem_dedup, List.mem_dedup]
  induction E with
  | nil => cases h
  | cons e rest ih =>
    rcases List.mem_cons.mp h with heq | htail
    · subst heq
      exact ⟨List.mem_cons_self _ _, List.mem_cons_of_mem _ (List.mem_cons_self _ _)⟩
    · obtain ⟨h1, h2⟩ := ih htail
      exact ⟨List.mem_cons_of_mem _ (List.mem_cons_of_mem _ h1),
        List.mem_cons_of_mem _ (List.mem_cons_of_mem _ h2)⟩

theorem mem_keysOf_iff {S : List DEntry} {v : Node} :
    v ∈ keysOf S ↔ ∃ du pu, (v, du, pu) ∈ S := by
  constructor
  · intro h
    obtain ⟨ent, hmem, heq⟩ := List.mem_map.mp h
    exact ⟨ent.2.1, ent.2.2, by rw [← heq]; exact hmem⟩
  · intro ⟨du, pu, h⟩
    exact List.mem_map.mpr ⟨(v, du, pu), h, rfl⟩

/-! ### The Dijkstra invariant and its preservation -/

/-- Structural invariant of the settled list: the source is settled with
distance 0, every entry records a genuine walk from the source with its
exact cost, keys are distinct, and keys are graph nodes. -/
structure DInv (E : List (Node × Node)) (c : Node × Node → ℤ) (src : Node)
    (S : List DEntry) : Prop where
  src_mem : (src, 0, [src]) ∈ S
  wf : ∀ ent ∈ S, Walk E src ent.1 ent.2.2 ∧ walkCost E c ent.2.2 = ent.2.1
  keys_nodup : (keysOf S).Nodup
  keys_sub : keysOf S ⊆ graphNodes E

/-- Settled distances are minimal over all walks from the source. -/
def DMin (E : List (Node × Node)) (c : Node × Node → ℤ) (src : Node)
    (S : List DEntry) : Prop :=
  ∀ ent ∈ S, ∀ q, Walk E src ent.1 q → ent.2.1 ≤ walkCost E c q

/-- The cut argument: any walk starting at a settled node and ending
outside the settled set costs (from the settled node's distance) at least
the minimum candidate distance. -/
theorem cut_bound {E : List (Node × Node)} {c : Node × Node → ℤ} {src : Node}
    {S : List DEntry} (hpos : ∀ e ∈ E, 0 ≤ c e)
    (hinv : DInv E c src S) (hmin : DMin E c src S) {m : DEntry}
    (hm : ∀ x ∈ candidatesOf E c S, m.2.1 ≤ x.2.1) :
    ∀ {u t : Node} {q : List Node}, Walk E u t q → t ∉ keysOf S →
      ∀ du pu, (u, du, pu) ∈ S → m.2.1 ≤ du + walkCost E c q := by
  intro u t q hw
  induction hw with
  | single x =>
    intro ht du pu hmem
    exact absurd (mem_keysOf_iff.mpr ⟨du, pu, hmem⟩) ht
  | @cons u v d p huv hw ih =>
    intro ht du pu hmem
    obtain ⟨hwu, hcu⟩ := hinv.wf _ hmem
    by_cases hv : v ∈ keysOf S
    · obtain ⟨dv, pv, hvmem⟩ := mem_keysOf_iff.mp hv
      have hih := ih ht dv pv hvmem
      have hq'c : walkCost E c (pu ++ [v]) = du + wOf E c u v := by
        rw [walkCost_snoc hwu, hcu]
      have hdv : dv ≤ du + wOf E c u v := by
        have hb := hmin _ hvmem (pu ++ [v]) (hwu.snoc huv)
        rw [hq'c] at hb
        exact hb
      obtain ⟨r, rfl⟩ := hw.head_shape
      rw [walkCost_cons_cons]
      have hih' : m.2.1 ≤ dv + walkCost E c (v :: r) := hih
      linarith
    · have hcand : (v, du + wOf E c u v, pu ++ [v]) ∈ candidatesOf E c S :=
        mem_candidates_iff.mpr ⟨u, du, pu, hmem, v, wOf E c u v,
          adj_mem_neighbors c huv, hv, rfl⟩
      have h1 : m.2.1 ≤ du + wOf E c u v := hm _ hcand
      have h2 : 0 ≤ walkCost E c p := hw.cost_nonneg hpos
      obtain ⟨r, rfl⟩ := hw.head_shape
      rw [walkCost_cons_cons]
      have h2' : 0 ≤ walkCost E c (v :: r) := h2
      linarith

theorem keysOf_append (S : List DEntry) (m : DEntry) :
    keysOf (S ++ [m]) = keysOf S ++ [m.1] := by
  simp [keysOf]

/-- Settling the minimum candidate preserves the structural invariant. -/
theorem dstep_inv {E : List (Node × Node)} {c : Node × Node → ℤ} {src : Node}
    {S : List DEntry} {a : DEntry} {l : List DEntry} (hdup : OrientUnique E)
    (hinv : DInv E c src S) (hc : candidatesOf E c S = a :: l) :
    DInv E c src (S ++ [pickMin a l]) := by
  have hmemc : pickMin a l ∈ candidatesOf E c S := by
    rw [hc]
    exact pickMin_mem a l
  obtain ⟨u, du, pu, hu, v, wv, hnb, hk, hment⟩ := mem_candidates_iff.mp hmemc
  obtain ⟨hadj, hwv⟩ := neighbor_weight hdup hnb
  obtain ⟨hwu, hcu⟩ := hinv.wf _ hu
  constructor
  · exact List.mem_append_left _ hinv.src_mem
  · intro ent hent
    rcases List.mem_append.mp hent with h | h
    · exact hinv.wf ent h
    · rw [List.mem_singleton] at h
      subst h
      rw [hment]
      exact ⟨hwu.snoc hadj, by rw [walkCost_snoc hwu, hcu, hwv]⟩
  · rw [keysOf_append]
    rw [List.nodup_append]
    refine ⟨hinv.keys_nodup, List.nodup_singleton _, ?_⟩
    intro x hx hx'
    rw [List.mem_singleton] at hx'
    subst hx'
    rw [hment] at hx
    exact hk hx
  · rw [keysOf_append]
    intro x hx
    rcases List.mem_append.mp hx with h | h
    · exact hinv.keys_sub h
    · rw [List.mem_singleton] at h
      subst h
      rw [hment]
      rcases hadj with h | h
      · exact (mem_graphNodes h).2
      · exact (mem_graphNodes h).1

/-- Settling the minimum candidate preserves global minimality. -/
theorem dstep_min {E : List (Node × Node)} {c : Node × Node → ℤ} {src : Node}
    {S : List DEntry} {a : DEntry} {l : List DEntry} (hpos : ∀ e ∈ E, 0 ≤ c e)
    (hinv : DInv E c src S) (hmin : DMin E c src S)
    (hc : candidatesOf E c S = a :: l) : DMin E c src (S ++ [pickMin a l]) := by
  have hm : ∀ x ∈ candidatesOf E c S, (pickMin a l).2.1 ≤ x.2.1 := by
    rw [hc]
    exact pickMin_le a l
  have hmemc : pickMin a l ∈ candidatesOf E c S := by
    rw [hc]
    exact pickMin_mem a l
  obtain ⟨u, du, pu, hu, v, wv, hnb, hk, hment⟩ := mem_candidates_iff.mp hmemc
  intro ent hent q hq
  rcases List.mem_append.mp hent with h | h
  · exact hmin ent h q hq
  · rw [List.mem_singleton] at h
    subst h
    rw [hment] at hq ⊢
    have hb := cut_bound hpos hinv hmin hm hq hk 0 [src] hinv.src_mem
    rw [zero_add] at hb
    rw [hment] at hb
    exact hb

theorem dloop_prefix (E : List (Node × Node)) (c : Node × Node → ℤ) (fuel : ℕ)
    (S : List DEntry) : ∃ ext, dijkstraLoop E c fuel S = S ++ ext := by
  induction fuel generalizing S with
  | zero => exact ⟨[], (List.append_nil S).symm⟩
  | succ fuel ih =>
    cases hc : candidatesOf E c S with
    | nil =>
      refine ⟨[], ?_⟩
      rw [dijkstraLoop, hc, List.append_nil]
    | cons a l =>
      obtain ⟨ext, hext⟩ := ih (S ++ [pickMin a l])
      refine ⟨[pickMin a l] ++ ext, ?_⟩
      rw [dijkstraLoop, hc]
      show dijkstraLoop E c fuel (S ++ [pickMin a l]) = S ++ ([pickMin a l] ++ ext)
      rw [hext, List.append_assoc]

theorem dloop_inv {E : List (Node × Node)} {c : Node × Node → ℤ} {src : Node}
    (hdup : OrientUnique E) (fuel : ℕ) {S : List DEntry} (hinv : DInv E c src S) :
    DInv E c src (dijkstraLoop E c fuel S) := by
  induction fuel generalizing S with
  | zero => exact hinv
  | succ fuel ih =>
    cases hc : candidatesOf E c S with
    | nil =>
      rw [dijkstraLoop, hc]
      exact hinv
    | cons a l =>
      rw [dijkstraLoop, hc]
      exact ih (dstep_inv hdup hinv hc)

theorem dloop_min {E : List (Node × Node)} {c : Node × Node → ℤ} {src : Node}
    (hpos : ∀ e ∈ E, 0 ≤ c e) (hdup : OrientUnique E) (fuel : ℕ) {S : List DEntry}
    (hinv : DInv E c src S) (hmin : DMin E c src S) :
    DMin E c src (dijkstraLoop E c fuel S) := by
  induction fuel generalizing S with
  | zero => exact hmin
  | succ fuel ih =>
    cases hc : candidatesOf E c S with
    | nil =>
      rw [dijkstraLoop, hc]
      exact hmin
    | cons a l =>
      rw [dijkstraLoop, hc]
      exact ih (dstep_inv hdup hinv hc) (dstep_min hpos hinv hmin hc)

/-- With enough fuel the loop runs until no candidate remains. -/
theorem dloop_saturated {E : List (Node × Node)} {c : Node × Node → ℤ} {src : Node}
    (hdup : OrientUnique E) (fuel : ℕ) {S : List DEntry} (hinv : DInv E c src S)
    (hfuel : (graphNodes E).length ≤ fuel + (keysOf S).length) :
    candidatesOf E c (dijkstraLoop E c fuel S) = [] := by
  induction fuel generalizing S with
  | zero =>
    cases hc : candidatesOf E c S with
    | nil => exact hc
    | cons a l =>
      exfalso
      have hmemc : a ∈ candidatesOf E c S := by
        rw [hc]
        exact List.mem_cons_self a l
      obtain ⟨u, du, pu, hu, v, wv, hnb, hk, hment⟩ := mem_candidates_iff.mp hmemc
      obtain ⟨hadj, _⟩ := neighbor_weight hdup hnb
      have hvg : v ∈ graphNodes E := by
        rcases hadj with h | h
        · exact (mem_graphNodes h).2
        · exact (mem_graphNodes h).1
      have hsub : (v :: keysOf S) ⊆ graphNodes E := by
        intro x hx
        rcases List.mem_cons.mp hx with rfl | hx'
        · exact hvg
        · exact hinv.keys_sub hx'
      have hnd : (v :: keysOf S).Nodup := List.nodup_cons.mpr ⟨hk, hinv.keys_nodup⟩
      have hlen := (List.subperm_of_subset hnd hsub).length_le
      simp only [List.length_cons] at hlen
      omega
  | succ fuel ih =>
    cases hc : candidatesOf E c S with
    | nil =>
      rw [dijkstraLoop, hc]
      exact hc
    | cons a l =>
      rw [dijkstraLoop, hc]
      refine ih (dstep_inv hdup hinv hc) ?_
      rw [keysOf_append, List.length_append, List.length_singleton]
      omega

/-- Once no candidate remains, the settled keys are closed under walks. -/
theorem closed_keys {E : List (Node × Node)} {c : Node × Node → ℤ}
    {S : List DEntry} (hc0 : candidatesOf E c S = []) :
    ∀ {u t : Node} {q : List Node}, Walk E u t q → u ∈ keysOf S → t ∈ keysOf S := by
  intro u t q hw
  induction hw with
  | single x => exact id
  | @cons u v d p huv hw ih =>
    intro hu
    by_cases hv : v ∈ keysOf S
    · exact ih hv
    · exfalso
      obtain ⟨du, pu, hmem⟩ := mem_keysOf_iff.mp hu
      have hcand : (v, du + wOf E c u v, pu ++ [v]) ∈ candidatesOf E c S :=
        mem_candidates_iff.mpr ⟨u, du, pu, hmem, v, wOf E c u v,
          adj_mem_neighbors c huv, hv, rfl⟩
      rw [hc0] at hcand
      cases hcand

/-! ### Top-level properties of `get_ospf_path` -/

theorem init_dinv {E : List (Node × Node)} {c : Node × Node → ℤ} {src : Node}
    (hsrc : src ∈ graphNodes E) : DInv E c src [(src, 0, [src])] := by
  constructor
  · exact List.mem_singleton.mpr rfl
  · intro ent hent
    rw [List.mem_singleton] at hent
    subst hent
    exact ⟨Walk.single src, rfl⟩
  · exact List.nodup_singleton src
  · intro x hx
    have hx' : x = src := List.mem_singleton.mp hx
    subst hx'
    exact hsrc

theorem init_dmin {E : List (Node × Node)} {c : Node × Node → ℤ} {src : Node}
    (hpos : ∀ e ∈ E, 0 ≤ c e) : DMin E c src [(src, 0, [src])] := by
  intro ent hent q hq
  rw [List.mem_singleton] at hent
  subst hent
  exact hq.cost_nonneg hpos

/-- Correctness of the shortest-path model: on a graph with nonnegative
unambiguous weights, for connected endpoints `get_ospf_path` returns a
walk from source to destination of minimum total cost among all walks. -/
theorem get_ospf_path_spec {E : List (Node × Node)} {c : Node × Node → ℤ}
    {src dst : Node} (hpos : ∀ e ∈ E, 0 ≤ c e) (hdup : OrientUnique E)
    (hsrc : src ∈ graphNodes E) (hdst : dst ∈ graphNodes E)
    (hconn : ∃ q, Walk E src dst q) :
    ∃ p, get_ospf_path E c src dst = .ok p ∧ Walk E src dst p ∧
      ∀ q, Walk E src dst q → walkCost E c p ≤ walkCost E c q := by
  have hinv0 := init_dinv (E := E) (c := c) hsrc
  have hmin0 : DMin E c src [(src, 0, [src])] := init_dmin hpos
  have hinv := dloop_inv hdup (graphNodes E).length hinv0
  have hmin := dloop_min hpos hdup (graphNodes E).length hinv0 hmin0
  have hsat := dloop_saturated hdup (graphNodes E).length hinv0 (by
    simp [keysOf])
  obtain ⟨q0, hq0⟩ := hconn
  have hsrck : src ∈ keysOf (dijkstraLoop E c (graphNodes E).length [(src, 0, [src])]) :=
    mem_keysOf_iff.mpr ⟨0, [src], hinv.src_mem⟩
  have hdstk := closed_keys hsat hq0 hsrck
  obtain ⟨ddst, pdst, hdmem⟩ := mem_keysOf_iff.mp hdstk
  cases hfind : (dijkstraLoop E c (graphNodes E).length [(src, 0, [src])]).find?
      (fun ent => ent.1 == dst) with
  | none =>
    exfalso
    have hnone := List.find?_eq_none.mp hfind _ hdmem
    simp at hnone
  | some ent =>
    have hentmem := List.mem_of_find?_eq_some hfind
    have hkey : ent.1 = dst := by
      have hp := List.find?_some hfind
      simpa using hp
    obtain ⟨hwalk, hcost⟩ := hinv.wf ent hentmem
    rw [hkey] at hwalk
    refine ⟨ent.2.2, ?_, hwalk, ?_⟩
    · unfold get_ospf_path
      rw [if_pos ⟨hsrc, hdst⟩]
      unfold dijkstra
      rw [hfind]
    · intro q hq
      rw [hcost]
      refine hmin ent hentmem q ?_
      rw [hkey]
      exact hq

/-- Any successfully resolved path is a walk from source to destination. -/
theorem get_ospf_path_ok_walk {E : List (Node × Node)} {c : Node × Node → ℤ}
    {src dst : Node} {p : List Node} (hdup : OrientUnique E)
    (h : get_ospf_path E c src dst = .ok p) : Walk E src dst p := by
  unfold get_ospf_path at h
  by_cases hmem : src ∈ graphNodes E ∧ dst ∈ graphNodes E
  · rw [if_pos hmem] at h
    cases hfind : (dijkstra E c src).find? (fun ent => ent.1 == dst) with
    | none =>
      rw [hfind] at h
      cases h
    | some ent =>
      rw [hfind] at h
      have hp := Except.ok.inj h
      subst hp
      have hinv := dloop_inv hdup (graphNodes E).length (init_dinv (c := c) hmem.1)
      have hentmem := List.mem_of_find?_eq_some hfind
      have hkey : ent.1 = dst := by
        have hq := List.find?_some hfind
        simpa using hq
      have hwalk := (hinv.wf ent hentmem).1
      rw [hkey] at hwalk
      exact hwalk
  · rw [if_neg hmem] at h
    cases h

/-- When the endpoints are graph nodes but not connected, resolution
fails with the no-path error. -/
theorem get_ospf_path_no_walk {E : List (Node × Node)} {c : Node × Node → ℤ}
    {src dst : Node} (hdup : OrientUnique E) (hsrc : src ∈ graphNodes E)
    (hdst : dst ∈ graphNodes E) (hnc : ¬∃ q, Walk E src dst q) :
    get_ospf_path E c src dst = .error .noPath := by
  unfold get_ospf_path
  rw [if_pos ⟨hsrc, hdst⟩]
  cases hfind : (dijkstra E c src).find? (fun ent => ent.1 == dst) with
  | none => rfl
  | some ent =>
    exfalso
    have hinv := dloop_inv hdup (graphNodes E).length (init_dinv (c := c) hsrc)
    have hentmem := List.mem_of_find?_eq_some hfind
    have hkey : ent.1 = dst := by
      have hq := List.find?_some hfind
      simpa using hq
    have hwalk := (hinv.wf ent hentmem).1
    rw [hkey] at hwalk
    exact hnc ⟨ent.2.2, hwalk⟩

/-- When an endpoint is not a node of the graph, resolution fails with
the unknown-node error (`networkx.NodeNotFound`). -/
theorem get_ospf_path_unknown {E : List (Node × Node)} {c : Node × Node → ℤ}
    {src dst : Node} (h : ¬(src ∈ graphNodes E ∧ dst ∈ graphNodes E)) :
    get_ospf_path E c src dst = .error .nodeNotFound := by
  unfold get_ospf_path
  rw [if_neg h]

/-- Resolving a node to itself yields the single-element path. -/
theorem get_ospf_path_self {E : List (Node × Node)} {c : Node × Node → ℤ}
    {src : Node} (hsrc : src ∈ graphNodes E) :
    get_ospf_path E c src src = .ok [src] := by
  unfold get_ospf_path
  rw [if_pos ⟨hsrc, hsrc⟩]
  obtain ⟨ext, hext⟩ := dloop_prefix E c (graphNodes E).length [(src, 0, [src])]
  unfold dijkstra
  rw [hext, List.singleton_append, List.find?_cons_of_pos _ (by simp)]

/-! ### Cost-table congruence and the fixed topology -/

theorem neighborsOf_congr {E : List (Node × Node)} {c c' : Node × Node → ℤ}
    (h : ∀ e ∈ E, c e = c' e) (u : Node) :
    neighborsOf E c u = neighborsOf E c' u := by
  induction E with
  | nil => rfl
  | cons e rest ih =>
    have he := h e (List.mem_cons_self e rest)
    have ht := ih (fun x hx => h x (List.mem_cons_of_mem e hx))
    rw [neighborsOf, neighborsOf, he, ht]

theorem candidatesOf_congr {E : List (Node × Node)} {c c' : Node × Node → ℤ}
    (h : ∀ e ∈ E, c e = c' e) (S : List DEntry) :
    candidatesOf E c S = candidatesOf E c' S := by
  unfold candidatesOf
  have hf : (fun ent : DEntry => (neighborsOf E c ent.1).filterMap (fun nb =>
      if nb.1 ∈ keysOf S then none
      else some (nb.1, ent.2.1 + nb.2, ent.2.2 ++ [nb.1])))
      = (fun ent : DEntry => (neighborsOf E c' ent.1).filterMap (fun nb =>
      if nb.1 ∈ keysOf S then none
      else some (nb.1, ent.2.1 + nb.2, ent.2.2 ++ [nb.1]))) :=
    funext (fun ent => by rw [neighborsOf_congr h])
  rw [hf]

theorem dloop_congr {E : List (Node × Node)} {c c' : Node × Node → ℤ}
    (h : ∀ e ∈ E, c e = c' e) (fuel : ℕ) (S : List DEntry) :
    dijkstraLoop E c fuel S = dijkstraLoop E c' fuel S := by
  induction fuel generalizing S with
  | zero => rfl
  | succ fuel ih =>
    rw [dijkstraLoop, dijkstraLoop, ← candidatesOf_congr h S]
    cases hc : candidatesOf E c S with
    | nil => rfl
    | cons a l => exact ih (S ++ [pickMin a l])

theorem get_ospf_path_congr {E : List (Node × Node)} {c c' : Node × Node → ℤ}
    (h : ∀ e ∈ E, c e = c' e) (src dst : Node) :
    get_ospf_path E c src dst = get_ospf_path E c' src dst := by
  unfold get_ospf_path
  split
  · unfold dijkstra
    rw [dloop_congr h]
  · rfl

/-- `get_ospf_path` of the simulator: the fixed topology with the current
cost table. -/
def resolveFixed (s : SimState) (src dst : Node) : Except SimError (List Node) :=
  get_ospf_path connections s.ospf_costs src dst

/-- Total cost of a node sequence under the current cost table. -/
def pathCost (s : SimState) (p : List Node) : ℤ :=
  walkCost connections s.ospf_costs p

theorem orientUnique_of_forall {E : List (Node × Node)}
    (h : ∀ e ∈ E, Prod.swap e ∉ E ∨ e.1 = e.2) : OrientUnique E := by
  intro a b h1 h2
  rcases h (a, b) h1 with h' | h'
  · exact absurd h2 h'
  · exact h'

theorem connections_orient : OrientUnique connections :=
  orientUnique_of_forall (by decide)

theorem nodeNames_graph : ∀ x ∈ nodeNames, x ∈ graphNodes connections := by decide

theorem graph_nodeNames : ∀ x ∈ graphNodes connections, x ∈ nodeNames := by decide

/-! ### A frozen cost snapshot for the concrete R1→N3 check -/

/-- Concrete initialization draws (all inside [10, 50]). -/
def frozenDraw : Node × Node → ℚ := fun k =>
  if k = (R1, R2) then 20 else if k = (R2, R3) then 20
  else if k = (R3, R4) then 10 else if k = (R4, R1) then 10
  else if k = (R1, N1) then 25 else if k = (R2, N2) then 25 else 50

/-- The frozen snapshot: the state right after initialization with the
draws `frozenDraw`. -/
def frozenState : SimState := initState frozenDraw

/-- The integer cost table the frozen snapshot stores. -/
def frozenCost : Node × Node → ℤ := fun k =>
  if k = (R1, R2) then 50 else if k = (R2, R3) then 50
  else if k = (R3, R4) then 100 else if k = (R4, R1) then 100
  else if k = (R1, N1) then 40 else if k = (R2, N2) then 40 else 20

theorem frozen_cost_eval : ∀ e ∈ connections, frozenState.ospf_costs e = frozenCost e := by
  intro e he
  have hev := foldl_init_eval connections frozenDraw
    { latencies := fun _ => 0, ospf_costs := fun _ => 0 } e he connections_pairwise
  show (initState frozenDraw).ospf_costs e = frozenCost e
  simp only [initState]
  rw [hev.2.2.1]
  fin_cases he <;>
    (simp +decide [frozenDraw, frozenCost, R1, R2, R3, R4, N1, N2, N3]
     apply costOf_eq_of_bounds <;> norm_num)

theorem frozen_cost_nonneg : ∀ e ∈ connections, 0 ≤ frozenState.ospf_costs e := by
  intro e he
  rw [frozen_cost_eval e he]
  fin_cases he <;> decide

theorem frozen_resolve : resolveFixed frozenState R1 N3 = .ok [R1, R2, R3, N3] := by
  rw [resolveFixed, get_ospf_path_congr frozen_cost_eval]
  rfl

theorem walk_R1_N3 : Walk connections R1 N3 [R1, R2, R3, N3] :=
  Walk.cons (Or.inl (by decide))
    (Walk.cons (Or.inl (by decide))
      (Walk.cons (Or.inl (by decide)) (Walk.single N3)))

/-- C2: for every cost snapshot with nonnegative stored costs and every
connected pair of topology nodes, `get_ospf_path` returns a walk of the
fixed topology from source to destination whose total stored cost is
minimal among all walks; in particular, on the frozen snapshot
`resolve('R1','N3')` returns [R1, R2, R3, N3], which is minimal among all
R1→N3 walks of the 7-node graph. -/
theorem claim_C2 :
    (∀ s : SimState, (∀ e ∈ connections, 0 ≤ s.ospf_costs e) →
      ∀ src dst : Node, src ∈ nodeNames → dst ∈ nodeNames →
        (∃ q, Walk connections src dst q) →
        ∃ p, resolveFixed s src dst = .ok p ∧ Walk connections src dst p ∧
          ∀ q, Walk connections src dst q → pathCost s p ≤ pathCost s q) ∧
      (resolveFixed frozenState R1 N3 = .ok [R1, R2, R3, N3] ∧
        ∀ q, Walk connections R1 N3 q →
          pathCost frozenState [R1, R2, R3, N3] ≤ pathCost frozenState q) := by
  refine ⟨?_, frozen_resolve, ?_⟩
  · intro s hc src dst hsrc hdst hconn
    exact get_ospf_path_spec hc connections_orient (nodeNames_graph _ hsrc)
      (nodeNames_graph _ hdst) hconn
  · obtain ⟨p, hok, _, hmin⟩ := get_ospf_path_spec frozen_cost_nonneg connections_orient
      (nodeNames_graph R1 (by decide)) (nodeNames_graph N3 (by decide))
      ⟨[R1, R2, R3, N3], walk_R1_N3⟩
    have hp : p = [R1, R2, R3, N3] := Except.ok.inj (hok.symm.trans frozen_resolve)
    rw [← hp]
    exact hmin

/-- Witness for C2: the frozen snapshot with the concrete R1→N3 query. -/
theorem claim_C2_witness :
    ∃ p, resolveFixed frozenState R1 N3 = .ok p ∧ Walk connections R1 N3 p ∧
      ∀ q, Walk connections R1 N3 q →
        pathCost frozenState p ≤ pathCost frozenState q :=
  claim_C2.1 frozenState frozen_cost_nonneg R1 N3 (by decide) (by decide)
    ⟨[R1, R2, R3, N3], walk_R1_N3⟩

/-- C9: for every node X of the topology and any metric state,
`get_ospf_path(X, X)` returns the single-element path [X]. -/
theorem claim_C9 :
    ∀ (s : SimState) (X : Node), X ∈ nodeNames → resolveFixed s X X = .ok [X] := by
  intro s X hX
  exact get_ospf_path_self (nodeNames_graph X hX)

/-- Witness for C9: R1 resolved to itself on a freshly initialized state. -/
theorem claim_C9_witness : resolveFixed (initState fun _ => 20) R1 R1 = .ok [R1] :=
  claim_C9 (initState fun _ => 20) R1 (by decide)

/-! ### Probe simulators (`ping`, `traceroute`) -/

/-- The global `random` stream as a pre-drawn sequence of unit values
with a cursor; each call to `random.random()` reads one value. -/
structure Rng where
  stream : ℕ → ℚ
  pos : ℕ

/-- `random.random()`. -/
def Rng.next (r : Rng) : ℚ × Rng := (r.stream r.pos, { r with pos := r.pos + 1 })

/-- `random.uniform(a, b)`: one unit draw mapped affinely into [a, b]. -/
def Rng.uniform (r : Rng) (a b : ℚ) : ℚ × Rng :=
  (a + (b - a) * (r.next).1, (r.next).2)

/-- Total latency along the consecutive pairs of a path (`ping`,
lines 115–118). -/
def pathLatency (lat : Node × Node → ℚ) : List Node → ℚ
  | u :: v :: rest => lat (u, v) + pathLatency lat (v :: rest)
  | _ => 0

/-- The echo loop of `ping` (lines 108–132): per echo one loss draw
(timeout below probability 1/100 appends an absent sample), otherwise the
current path latency plus a `uniform(-2, 2)` jitter, floored at 0. -/
def pingLoop (lat : Node × Node → ℚ) (path : List Node) :
    ℕ → Rng → List (Option ℚ) × Rng
  | 0, r => ([], r)
  | n + 1, r =>
    let lossDraw := (r.next).1
    let r1 := (r.next).2
    if lossDraw < 1 / 100 then
      let res := pingLoop lat path n r1
      (none :: res.1, res.2)
    else
      let jitter := (r1.uniform (-2) 2).1
      let r2 := (r1.uniform (-2) 2).2
      let res := pingLoop lat path n r2
      (some (max 0 (pathLatency lat path + jitter)) :: res.1, res.2)

/-- `NetworkSimulator.ping`: membership check against `self.nodes`, then
path resolution (whose errors propagate), then the echo loop. The second
component is the state of the global random stream on return. -/
def ping (E : List (Node × Node)) (nodesL : List Node) (s : SimState)
    (src dst : Node) (r : Rng) (count : ℕ := 4) :
    Except SimError (List (Option ℚ) × List Node) × Rng :=
  if src ∈ nodesL ∧ dst ∈ nodesL then
    match get_ospf_path E s.ospf_costs src dst with
    | .ok path =>
      let res := pingLoop s.latencies path count r
      (.ok (res.1, path), res.2)
    | .error err => (.error err, r)
  else (.error .nodeNotFound, r)

/-- The hop records of `traceroute` (lines 145–151): one record per
consecutive pair, carrying the current latency of the edge to the next
node. -/
def hopsOf (lat : Node × Node → ℚ) : List Node → List (Node × ℚ)
  | u :: v :: rest => (u, lat (u, v)) :: hopsOf lat (v :: rest)
  | _ => []

/-- `NetworkSimulator.traceroute`: membership check, then a try-block
around path resolution — any error there is caught and `([], [])` is
returned; on success the hop list ends with `(destination, 0)`. It
consumes no randomness. -/
def traceroute (E : List (Node × Node)) (nodesL : List Node) (s : SimState)
    (src dst : Node) : Except SimError (List (Node × ℚ) × List Node) :=
  if src ∈ nodesL ∧ dst ∈ nodesL then
    match get_ospf_path E s.ospf_costs src dst with
    | .ok path => .ok (hopsOf s.latencies path ++ [(dst, 0)], path)
    | .error _ => .ok ([], [])
  else .error .nodeNotFound

/-- `ping` on the simulator's fixed topology. -/
def pingFixed (s : SimState) (src dst : Node) (r : Rng) (count : ℕ := 4) :
    Except SimError (List (Option ℚ) × List Node) × Rng :=
  ping connections nodeNames s src dst r count

/-- `traceroute` on the simulator's fixed topology. -/
def tracerouteFixed (s : SimState) (src dst : Node) :
    Except SimError (List (Node × ℚ) × List Node) :=
  traceroute connections nodeNames s src dst

/-! ### Error-handling claims C5 and C8 -/

/-- A name that is not a node of the topology. -/
def X0 : Node := "X0"

/-- C5: for an unknown source or destination, `resolve`, `ping` and
`traceroute` all fail with the unknown-node error, and the random stream
is returned untouched (no randomness consumed); none of the three takes
or returns a modified metric table. -/
theorem claim_C5 :
    ∀ (s : SimState) (src dst : Node), (src ∉ nodeNames ∨ dst ∉ nodeNames) →
      resolveFixed s src dst = .error .nodeNotFound ∧
      (∀ (r : Rng) (count : ℕ),
        pingFixed s src dst r count = (.error .nodeNotFound, r)) ∧
      tracerouteFixed s src dst = .error .nodeNotFound := by
  intro s src dst h
  have hmem : ¬(src ∈ nodeNames ∧ dst ∈ nodeNames) := by
    intro ⟨h1, h2⟩
    rcases h with h | h
    · exact h h1
    · exact h h2
  have hmemg : ¬(src ∈ graphNodes connections ∧ dst ∈ graphNodes connections) := by
    intro ⟨h1, h2⟩
    exact hmem ⟨graph_nodeNames _ h1, graph_nodeNames _ h2⟩
  refine ⟨get_ospf_path_unknown hmemg, ?_, ?_⟩
  · intro r count
    unfold pingFixed ping
    rw [if_neg hmem]
  · unfold tracerouteFixed traceroute
    rw [if_neg hmem]

/-- Witness for C5 at the unknown name X0 against a fresh state. -/
theorem claim_C5_witness :
    resolveFixed (initState fun _ => 20) X0 R1 = .error .nodeNotFound ∧
      (∀ (r : Rng) (count : ℕ),
        pingFixed (initState fun _ => 20) X0 R1 r count = (.error .nodeNotFound, r)) ∧
      tracerouteFixed (initState fun _ => 20) X0 R1 = .error .nodeNotFound :=
  claim_C5 _ X0 R1 (Or.inl (by decide))

/-- C8: for valid but unconnected endpoints (on any topology of the
simulator's shape), path resolution fails with the no-path error, `ping`
propagates it with no randomness consumed, and `traceroute` catches it
and degrades to the empty hop list and empty path. -/
theorem claim_C8 :
    ∀ (E : List (Node × Node)) (nodesL : List Node) (s : SimState) (src dst : Node),
      OrientUnique E → src ∈ nodesL → dst ∈ nodesL →
      src ∈ graphNodes E → dst ∈ graphNodes E →
      (¬∃ q, Walk E src dst q) →
      get_ospf_path E s.ospf_costs src dst = .error .noPath ∧
      traceroute E nodesL s src dst = .ok ([], []) ∧
      (∀ (r : Rng) (count : ℕ), ping E nodesL s src dst r count = (.error .noPath, r)) := by
  intro E nodesL s src dst hdup h1 h2 hg1 hg2 hnc
  have hres := get_ospf_path_no_walk (c := s.ospf_costs) hdup hg1 hg2 hnc
  refine ⟨hres, ?_, ?_⟩
  · unfold traceroute
    rw [if_pos ⟨h1, h2⟩, hres]
  · intro r count
    unfold ping
    rw [if_pos ⟨h1, h2⟩, hres]

/-- A disconnected topology for the C8 witness: two components. -/
def cexEdges : List (Node × Node) := [(R1, R2), (R3, R4)]

def cexNodes : List Node := [R1, R2, R3, R4]

def cexState : SimState := { latencies := fun _ => 1, ospf_costs := fun _ => 1 }

theorem cex_no_walk : ¬∃ q, Walk cexEdges R1 R3 q := by
  intro ⟨q, hq⟩
  have hclosed :
      candidatesOf cexEdges cexState.ospf_costs [(R1, 0, [R1]), (R2, 1, [R1, R2])] = [] := by
    decide
  have hmem := closed_keys hclosed hq (by decide)
  exact absurd hmem (by decide)

/-- Witness for C8 on the concrete disconnected topology. -/
theorem claim_C8_witness :
    get_ospf_path cexEdges cexState.ospf_costs R1 R3 = .error .noPath ∧
      traceroute cexEdges cexNodes cexState R1 R3 = .ok ([], []) ∧
      (∀ (r : Rng) (count : ℕ),
        ping cexEdges cexNodes cexState R1 R3 r count = (.error .noPath, r)) :=
  claim_C8 cexEdges cexNodes cexState R1 R3 (orientUnique_of_forall (by decide))
    (by decide) (by decide) (by decide) (by decide) cex_no_walk

/-! ### Probe claims C6 and C7 -/

theorem pingLoop_spec (lat : Node × Node → ℚ) (path : List Node) :
    ∀ (n : ℕ) (r : Rng),
      (pingLoop lat path n r).1.length = n ∧
      ∀ x ∈ (pingLoop lat path n r).1, x = none ∨ ∃ v, x = some v ∧ 0 ≤ v := by
  intro n
  induction n with
  | zero =>
    intro r
    exact ⟨rfl, fun x hx => absurd hx (List.not_mem_nil x)⟩
  | succ n ih =>
    intro r
    simp only [pingLoop]
    split
    · obtain ⟨hlen, hmem⟩ := ih ((r.next).2)
      refine ⟨by simp [hlen], ?_⟩
      intro x hx
      rcases List.mem_cons.mp hx with rfl | hx'
      · exact Or.inl rfl
      · exact hmem x hx'
    · obtain ⟨hlen, hmem⟩ := ih (((r.next).2.uniform (-2) 2).2)
      refine ⟨by simp [hlen], ?_⟩
      intro x hx
      rcases List.mem_cons.mp hx with rfl | hx'
      · exact Or.inr ⟨_, rfl, le_max_left 0 _⟩
      · exact hmem x hx'

/-- C6: for valid endpoints whose resolution succeeds, `ping` with count
N returns exactly N samples, each absent or nonnegative, together with
the resolved path; the count argument defaults to 4. -/
theorem claim_C6 :
    ∀ (s : SimState) (src dst : Node) (path : List Node) (r : Rng) (count : ℕ),
      src ∈ nodeNames → dst ∈ nodeNames →
      resolveFixed s src dst = .ok path →
      (∃ rtts r', pingFixed s src dst r count = (.ok (rtts, path), r') ∧
        rtts.length = count ∧
        (∀ x ∈ rtts, x = none ∨ ∃ v, x = some v ∧ 0 ≤ v)) ∧
      pingFixed s src dst r = pingFixed s src dst r 4 := by
  intro s src dst path r count h1 h2 hres
  constructor
  · unfold pingFixed ping
    rw [if_pos ⟨h1, h2⟩]
    unfold resolveFixed at hres
    rw [hres]
    obtain ⟨hlen, hmem⟩ := pingLoop_spec s.latencies path count r
    exact ⟨_, _, rfl, hlen, hmem⟩
  · rfl

/-- Witness for C6: three echoes on the frozen snapshot. -/
theorem claim_C6_witness :
    (∃ rtts r', pingFixed frozenState R1 N3 ⟨fun _ => 1 / 2, 0⟩ 3
        = (.ok (rtts, [R1, R2, R3, N3]), r') ∧
      rtts.length = 3 ∧
      (∀ x ∈ rtts, x = none ∨ ∃ v, x = some v ∧ 0 ≤ v)) ∧
    pingFixed frozenState R1 N3 ⟨fun _ => 1 / 2, 0⟩
      = pingFixed frozenState R1 N3 ⟨fun _ => 1 / 2, 0⟩ 4 :=
  claim_C6 frozenState R1 N3 [R1, R2, R3, N3] ⟨fun _ => 1 / 2, 0⟩ 3
    (by decide) (by decide) frozen_resolve

theorem hopsOf_length (lat : Node × Node → ℚ) :
    ∀ p : List Node, (hopsOf lat p).length = p.length - 1 := by
  intro p
  induction p with
  | nil => rfl
  | cons u p ih =>
    cases p with
    | nil => rfl
    | cons v rest =>
      simp only [hopsOf, List.length_cons] at ih ⊢
      omega

theorem hopsOf_get (lat : Node × Node → ℚ) :
    ∀ (p : List Node) (i : ℕ) (a b : Node), p[i]? = some a → p[i + 1]? = some b →
      (hopsOf lat p)[i]? = some (a, lat (a, b)) := by
  intro p
  induction p with
  | nil =>
    intro i a b ha _
    simp at ha
  | cons u p ih =>
    intro i a b ha hb
    cases p with
    | nil =>
      cases i with
      | zero => simp at hb
      | succ i => simp at ha
    | cons v rest =>
      cases i with
      | zero =>
        simp only [List.getElem?_cons_zero] at ha
        simp only [List.getElem?_cons_succ, List.getElem?_cons_zero] at hb
        obtain rfl := Option.some.inj ha
        obtain rfl := Option.some.inj hb
        simp [hopsOf]
      | succ i =>
        rw [List.getElem?_cons_succ] at ha
        rw [List.getElem?_cons_succ] at hb
        simp only [hopsOf, List.getElem?_cons_succ]
        exact ih i a b ha hb

/-- C7: for valid endpoints whose resolution succeeds, `traceroute`
returns as many hops as path nodes; each non-final hop carries the
current latency of the edge from its node to the next node of the path,
and the final hop is the destination at incremental latency 0. -/
theorem claim_C7 :
    ∀ (s : SimState) (src dst : Node) (path : List Node),
      src ∈ nodeNames → dst ∈ nodeNames →
      resolveFixed s src dst = .ok path →
      ∃ hops, tracerouteFixed s src dst = .ok (hops, path) ∧
        hops.length = path.length ∧
        hops.getLast? = some (dst, 0) ∧
        ∀ i, i + 1 < path.length →
          ∃ a b, path[i]? = some a ∧ path[i + 1]? = some b ∧
            hops[i]? = some (a, s.latencies (a, b)) := by
  intro s src dst path h1 h2 hres
  have hres' : get_ospf_path connections s.ospf_costs src dst = .ok path := hres
  have hwalk := get_ospf_path_ok_walk connections_orient hres'
  obtain ⟨q, hq⟩ := hwalk.head_shape
  have hlen1 : 1 ≤ path.length := by
    rw [hq]
    simp
  refine ⟨hopsOf s.latencies path ++ [(dst, 0)], ?_, ?_, ?_, ?_⟩
  · unfold tracerouteFixed traceroute
    rw [if_pos ⟨h1, h2⟩, hres']
  · rw [List.length_append, hopsOf_length]
    simp only [List.length_singleton]
    omega
  · exact List.getLast?_concat _
  · intro i hi
    have hia : i < path.length := by omega
    refine ⟨path[i], path[i + 1], List.getElem?_eq_getElem hia,
      List.getElem?_eq_getElem hi, ?_⟩
    rw [List.getElem?_append_left (by rw [hopsOf_length]; omega)]
    exact hopsOf_get s.latencies path i _ _ (List.getElem?_eq_getElem hia)
      (List.getElem?_eq_getElem hi)

/-- Witness for C7: traceroute R1→N3 on the frozen snapshot. -/
theorem claim_C7_witness :
    ∃ hops, tracerouteFixed frozenState R1 N3 = .ok (hops, [R1, R2, R3, N3]) ∧
      hops.length = ([R1, R2, R3, N3] : List Node).length ∧
      hops.getLast? = some (N3, 0) ∧
      ∀ i, i + 1 < ([R1, R2, R3, N3] : List Node).length →
        ∃ a b, ([R1, R2, R3, N3] : List Node)[i]? = some a ∧
          ([R1, R2, R3, N3] : List Node)[i + 1]? = some b ∧
          hops[i]? = some (a, frozenState.latencies (a, b)) :=
  claim_C7 frozenState R1 N3 [R1, R2, R3, N3] (by decide) (by decide) frozen_resolve

/-! ### The latency-updater loop and its stop signal (C10) -/

/-- Program points of the `update_latencies` coroutine: about to test
`self._running`; inside the per-edge loop before edge index `i`;
suspended in `asyncio.sleep(5)`; returned. -/
inductive UpdPC
  | check
  | inPass (i : ℕ)
  | sleeping
  | done
deriving DecidableEq

/-- State of the updater task: the `_running` flag, the program point,
and the metric tables it mutates. -/
structure UpdState where
  running : Bool
  pc : UpdPC
  sim : SimState

/-- One cooperative micro-step of `update_latencies`; `fac i` is the
value `random.uniform(0.9, 1.1)` draws for edge `i` of the current pass. -/
def microStep (fac : ℕ → ℚ) (u : UpdState) : UpdState :=
  match u.pc with
  | .check => if u.running then { u with pc := .inPass 0 } else { u with pc := .done }
  | .inPass i =>
    if h : i < connections.length then
      { u with sim := perturbEdge u.sim (connections.get ⟨i, h⟩) (fac i),
               pc := .inPass (i + 1) }
    else { u with pc := .sleeping }
  | .sleeping => { u with pc := .check }
  | .done => u

def runSteps (fac : ℕ → ℚ) : ℕ → UpdState → UpdState
  | 0, u => u
  | n + 1, u => runSteps fac n (microStep fac u)

/-- `NetworkSimulator.stop`: set `self._running = False`. -/
def stopSim (u : UpdState) : UpdState := { u with running := false }

/-- Micro-steps left until the loop returns, once the flag is cleared:
the rest of the in-flight pass, its trailing sleep, and one failed check. -/
def stepsToDone : UpdPC → ℕ
  | .check => 1
  | .inPass i => (connections.length - i) + 3
  | .sleeping => 2
  | .done => 0

/-- The metric state after the in-flight pass completes: the edges from
the current index on are each perturbed once; outside a pass the tables
are no longer touched. -/
def finishSim (fac : ℕ → ℚ) (u : UpdState) : SimState :=
  match u.pc with
  | .inPass i =>
    ((connections.enum).drop i).foldl (fun st je => perturbEdge st je.2 (fac je.1)) u.sim
  | _ => u.sim

theorem runSteps_add (fac : ℕ → ℚ) :
    ∀ (a b : ℕ) (u : UpdState), runSteps fac (a + b) u = runSteps fac a (runSteps fac b u) := by
  intro a b
  induction b generalizing a with
  | zero => exact fun u => rfl
  | succ b ih =>
    intro u
    show runSteps fac (a + b + 1) u = _
    rw [runSteps]
    exact ih a (microStep fac u)

theorem run_inPass (fac : ℕ → ℚ) :
    ∀ (k i : ℕ), k = connections.length - i → ∀ s : SimState,
      runSteps fac (k + 3) ⟨false, .inPass i, s⟩
        = ⟨false, .done, ((connections.enum).drop i).foldl
            (fun st je => perturbEdge st je.2 (fac je.1)) s⟩ := by
  intro k
  induction k with
  | zero =>
    intro i hk s
    have hge : connections.length ≤ i := by
      have : connections.length ≠ 0 := by decide
      omega
    have hdrop : (connections.enum).drop i = [] := by
      apply List.drop_eq_nil_of_le
      rw [List.enum_length]
      exact hge
    rw [hdrop]
    show microStep fac (microStep fac (microStep fac ⟨false, .inPass i, s⟩)) = _
    rw [show microStep fac ⟨false, .inPass i, s⟩ = ⟨false, .sleeping, s⟩ from by
      simp [microStep, dif_neg (not_lt.mpr hge)]]
    rfl
  | succ k ihk =>
    intro i hk s
    have hlt : i < connections.length := by omega
    have hstep : runSteps fac (k + 1 + 3) ⟨false, .inPass i, s⟩
        = runSteps fac (k + 3) (microStep fac ⟨false, .inPass i, s⟩) := rfl
    rw [hstep]
    rw [show microStep fac ⟨false, .inPass i, s⟩
        = ⟨false, .inPass (i + 1), perturbEdge s (connections.get ⟨i, hlt⟩) (fac i)⟩ from by
      simp [microStep, dif_pos hlt]]
    rw [ihk (i + 1) (by omega) _]
    have hilen : i < (connections.enum).length := by
      rw [List.enum_length]
      exact hlt
    have hdrop : (connections.enum).drop i
        = (i, connections.get ⟨i, hlt⟩) :: (connections.enum).drop (i + 1) := by
      rw [List.drop_eq_getElem_cons hilen, List.getElem_enum]
      rfl
    rw [hdrop, List.foldl_cons]

theorem runSteps_done (fac : ℕ → ℚ) (s : SimState) :
    ∀ m : ℕ, runSteps fac m ⟨false, .done, s⟩ = ⟨false, .done, s⟩ := by
  intro m
  induction m with
  | zero => rfl
  | succ m ih =>
    show runSteps fac m (microStep fac ⟨false, .done, s⟩) = _
    exact ih

/-- C10: the stop signal is idempotent, and once the flag is cleared the
updater finishes exactly the in-flight perturbation pass (every remaining
edge of that pass updated once, with the pass's trailing sleep) and then
terminates; no further micro-step changes anything afterwards, so no new
pass or sleep/tick cycle ever starts. -/
theorem claim_C10 :
    (∀ u : UpdState, stopSim (stopSim u) = stopSim u) ∧
    (∀ (fac : ℕ → ℚ) (u : UpdState), u.running = false →
      runSteps fac (stepsToDone u.pc) u = ⟨false, .done, finishSim fac u⟩ ∧
      (∀ m : ℕ, runSteps fac (stepsToDone u.pc + m) u
        = runSteps fac (stepsToDone u.pc) u)) := by
  constructor
  · intro u
    rfl
  · intro fac u hrun
    obtain ⟨run, pc, s⟩ := u
    cases hrun
    have hterm : runSteps fac (stepsToDone pc) ⟨false, pc, s⟩
        = ⟨false, .done, finishSim fac ⟨false, pc, s⟩⟩ := by
      cases pc with
      | check => rfl
      | inPass i => exact run_inPass fac (connections.length - i) i rfl s
      | sleeping => rfl
      | done => rfl
    refine ⟨hterm, ?_⟩
    intro m
    rw [Nat.add_comm, runSteps_add, hterm, runSteps_done]

/-- Witness for C10: stop taken mid-pass at edge index 2. -/
theorem claim_C10_witness :
    runSteps (fun _ => 1) (stepsToDone (UpdPC.inPass 2))
        ⟨false, .inPass 2, initState fun _ => 20⟩
      = ⟨false, .done, finishSim (fun _ => 1) ⟨false, .inPass 2, initState fun _ => 20⟩⟩ ∧
    (∀ m : ℕ, runSteps (fun _ => 1) (stepsToDone (UpdPC.inPass 2) + m)
        ⟨false, .inPass 2, initState fun _ => 20⟩
      = runSteps (fun _ => 1) (stepsToDone (UpdPC.inPass 2))
          ⟨false, .inPass 2, initState fun _ => 20⟩) :=
  claim_C10.2 (fun _ => 1) ⟨false, .inPass 2, initState fun _ => 20⟩ rfl

end OSPFSim
